import Mathlib

set_option maxHeartbeats 1000000

/-!
Shallow embedding of the `htb` crate (`src/lib.rs`): a hierarchical token
bucket rate limiter.

Modelling conventions:
* `usize` and `u128` are modelled as `Nat` with explicit wrap-around
  (`% 2 ^ 64`, `% 2 ^ 128`) at every arithmetic site where a Rust release
  build wraps; `checked_sub` is modelled by an explicit comparison.
* A Rust panic (division by zero in the lcm fold or in the scaled-rate
  computation) is modelled by `Option`: `none` means the call panics.
* Bucket labels `T` are modelled as `Nat` through the required
  `usize: From<T>` injection (the crate compares labels with `==` and
  indexes with `usize::from`; for a lawful label type both agree with the
  `Nat` image).
* `Duration` is modelled by its `as_nanos()` value (a `u128`-ranged `Nat`).
* `Vec` indexing `self.state[i]` is modelled with `List.getD`/`List.set`;
  both agree with the source for the in-range indices the compiled op list
  produces.
-/

deriving instance DecidableEq for Except

def usizeMax : Nat := 2 ^ 64 - 1

def wrap64 (n : Nat) : Nat := n % 2 ^ 64

def wrap128 (n : Nat) : Nat := n % 2 ^ 128

/-- Internal bucket state (`struct Bucket`): capacity and current value,
both in abstract units. -/
structure Bucket where
  cap : Nat
  value : Nat
deriving DecidableEq

/-- Bucket configuration (`struct BucketCfg<T>`), with the label type
instantiated at `Nat` and `rate: (usize, Duration)` split into the token
count `rateNum` and the nanosecond value `rateDur` of the duration. -/
structure BucketCfg where
  this : Nat
  parent : Option Nat
  rateNum : Nat
  rateDur : Nat
  capacity : Nat
deriving DecidableEq

/-- Construction-time error kinds (`enum Error`). -/
inductive Error where
  | NoRoot
  | InvalidRate
  | InvalidStructure
deriving DecidableEq

/-- Compiled instruction (`enum Op<T>`). -/
inductive Op where
  | Inflow (rate : Nat)
  | Take (k : Nat) (rate : Nat)
  | Deposit (k : Nat)
deriving DecidableEq

/-- The engine (`struct HTB<T>`). -/
structure HTB where
  state : List Bucket
  ops : List Op
  unit_cost : Nat
  time_limit : Nat
deriving DecidableEq

/-- Model of `fn lcm(a: u128, b: u128) -> u128`, computed as the `u128`
product divided by the gcd.
The `u128` product wraps in a release build; division by zero
(`a = b = 0`) panics, modelled by `none`. -/
def lcmR (a b : Nat) : Option Nat :=
  if Nat.gcd a b = 0 then none
  else some (wrap128 (a * b) / Nat.gcd a b)

/-- The `unit_cost` computation in `HTB::new`: fold `lcm` over all
duration nanosecond values (`reduce`), then `usize::try_from`
(failure is `Error::InvalidRate` via `From<TryFromIntError>`). -/
def computeUnit (ds : List Nat) : Option (Except Error Nat) :=
  match ds with
  | [] => some (.error .NoRoot)
  | d :: rest =>
    match rest.foldlM lcmR d with
    | none => none
    | some u => if usizeMax < u then some (.error .InvalidRate) else some (.ok u)

/-- One scaled rate in `HTB::new`:
`usize::try_from(cfg.rate.0 as u128 * unit_cost as u128 / cfg.rate.1.as_nanos())`.
`none` models the division-by-zero panic for a zero duration. -/
def scaledRate (u : Nat) (cfg : BucketCfg) : Option (Except Error Nat) :=
  if cfg.rateDur = 0 then none
  else
    let q := wrap128 (cfg.rateNum * u) / cfg.rateDur
    if usizeMax < q then some (.error .InvalidRate) else some (.ok q)

/-- The `rates` vector of `HTB::new`, computed left to right
(`collect::<Result<Vec<_>, _>>()` stops at the first error; a panic
before that aborts the call). -/
def computeRates (u : Nat) : List BucketCfg → Option (Except Error (List Nat))
  | [] => some (.ok [])
  | c :: rest =>
    match scaledRate u c with
    | none => none
    | some (.error e) => some (.error e)
    | some (.ok r) =>
      match computeRates u rest with
      | none => none
      | some (.error e) => some (.error e)
      | some (.ok rs) => some (.ok (r :: rs))

/-- The ancestor-popping loop of `HTB::new` (entered when
`cur.parent.as_ref() != stack.last()`).  The stack is modelled with the
most recently pushed (deepest) entry at the head, so `stack.last()` is
the head.  Every iteration looks at the top: if it equals `cur.parent`
it emits `Deposit(top)` and stops without popping; otherwise it emits
`Deposit(top)` and pops.  An emptied stack is `Error::InvalidStructure`,
modelled by `none`. -/
def popLoop (parent : Option Nat) : List Nat → Option (List Op × List Nat)
  | [] => none
  | p :: rest =>
    if some p = parent then some ([Op.Deposit p], p :: rest)
    else
      match popLoop parent rest with
      | none => none
      | some (ds, st) => some (Op.Deposit p :: ds, st)

/-- The main `for (ix, (cur, rate))` loop of `HTB::new`, carried over the
remaining `(cfg, rate)` pairs with the accumulated `ops`, `items` and
ancestor `stack`. -/
def buildLoop (u : Nat) :
    List (BucketCfg × Nat) → Nat → List Op → List Bucket → List Nat →
    Except Error (List Op × List Bucket × List Nat)
  | [], _, ops, items, stack => .ok (ops, items, stack)
  | (cur, rate) :: rest, ix, ops, items, stack =>
    if ix ≠ cur.this then .error .InvalidStructure
    else if items.isEmpty ∧ cur.parent.isSome then .error .NoRoot
    else if usizeMax < wrap128 (cur.capacity * u) then .error .InvalidRate
    else
      let b : Bucket := ⟨wrap64 (cur.capacity * u), wrap64 (cur.capacity * u)⟩
      let popRes :=
        if cur.parent = stack.head? then some (([] : List Op), stack)
        else popLoop cur.parent stack
      match popRes with
      | none => .error .InvalidStructure
      | some (ds, stack') =>
        let opCur := match cur.parent with
          | some p => Op.Take p rate
          | none => Op.Inflow rate
        buildLoop u rest (ix + 1) (ops ++ ds ++ [opCur]) (items ++ [b])
          (cur.this :: stack')

/-- Model of the wrapping `u128` sum `rates.iter().map(|r| *r as u128).sum()`. -/
def sumR (rs : List Nat) : Nat := rs.foldl (fun a b => wrap128 (a + b)) 0

/-- Constructor `HTB::new`. Here `none` models a panic; `some (Except.error e)` a returned
error; `some (Except.ok h)` success. The final op list is the main loop output
followed by one `Deposit` per leftover stack entry, deepest first
(`stack.iter().rev()`); `time_limit` is
`unit_cost as u128 * rates.sum()`, rejected if above `usize::MAX / 2`. -/
def new (tokens : List BucketCfg) : Option (Except Error HTB) :=
  match tokens with
  | [] => some (.error .NoRoot)
  | t0 :: rest =>
    if t0.parent.isSome then some (.error .NoRoot)
    else
      match computeUnit ((t0 :: rest).map BucketCfg.rateDur) with
      | none => none
      | some (.error e) => some (.error e)
      | some (.ok u) =>
        match computeRates u (t0 :: rest) with
        | none => none
        | some (.error e) => some (.error e)
        | some (.ok rates) =>
          match buildLoop u ((t0 :: rest).zip rates) 0 [] [] [] with
          | .error e => some (.error e)
          | .ok (ops, items, stack) =>
            let limit := wrap128 (u * sumR rates)
            if usizeMax / 2 < limit then some (.error .InvalidRate)
            else some (.ok ⟨items, ops ++ stack.map Op.Deposit, u, limit⟩)

/-- Extract the engine from a successful `new` (helper for stating
concrete facts; arbitrary default otherwise). -/
def fromNew (tokens : List BucketCfg) : HTB :=
  match new tokens with
  | some (.ok h) => h
  | _ => ⟨[], [], 0, 0⟩

/-- Whether `new` succeeds. -/
def newOk (tokens : List BucketCfg) : Bool :=
  match new tokens with
  | some (.ok _) => true
  | _ => false

/-- The default bucket used by the total `List.getD` access. -/
def bkt0 : Bucket := ⟨0, 0⟩

/-- One iteration of the op interpreter inside `HTB::advance_ns`,
transforming the `(flow, state)` accumulator.  All `usize` products and
sums wrap. -/
def stepOp (td : Nat) (acc : Nat × List Bucket) (o : Op) : Nat × List Bucket :=
  match o with
  | .Inflow rate => (wrap64 (rate * td), acc.2)
  | .Take k rate =>
    let b := acc.2.getD k bkt0
    let combined := wrap64 (acc.1 + b.value)
    let f := min combined (wrap64 (rate * td))
    (f, acc.2.set k ⟨b.cap, combined - f⟩)
  | .Deposit k =>
    let b := acc.2.getD k bkt0
    let combined := wrap64 (acc.1 + b.value)
    let dep := min b.cap combined
    let f := if dep < combined then combined - dep else 0
    (f, acc.2.set k ⟨b.cap, dep⟩)

/-- The op interpreter of `HTB::advance_ns`: a left fold of `stepOp`
starting from `flow = 0`. -/
def runOps (td : Nat) (ops : List Op) (acc : Nat × List Bucket) :
    Nat × List Bucket :=
  ops.foldl (stepOp td) acc

/-- Method `HTB::advance_ns(time_diff)`: clamp the delta to `time_limit`, then
run the compiled ops over the state. -/
def advance_ns (h : HTB) (timeDiff : Nat) : HTB :=
  let td := min timeDiff h.time_limit
  { h with state := (runOps td h.ops (0, h.state)).2 }

/-- Method `HTB::advance(delta)`: `self.advance_ns(delta.as_nanos() as usize)`;
the `as` cast truncates the `u128` to 64 bits. -/
def advance (h : HTB) (deltaNs : Nat) : HTB :=
  advance_ns h (wrap64 deltaNs)

/-- Method `HTB::peek(label)`: `state[label].value >= unit_cost`. -/
def peek (h : HTB) (label : Nat) : Bool :=
  h.unit_cost ≤ (h.state.getD label bkt0).value

/-- Method `HTB::peek_n(label, cnt)`: `state[label].value >= unit_cost * cnt`
(the product is a wrapping `usize` multiplication). -/
def peek_n (h : HTB) (label cnt : Nat) : Bool :=
  wrap64 (h.unit_cost * cnt) ≤ (h.state.getD label bkt0).value

/-- Method `HTB::take(label)`: `checked_sub(unit_cost)`, updating on `Some`. -/
def take (h : HTB) (label : Nat) : Bool × HTB :=
  let b := h.state.getD label bkt0
  if h.unit_cost ≤ b.value then
    (true, { h with state := h.state.set label ⟨b.cap, b.value - h.unit_cost⟩ })
  else (false, h)

/-- Method `HTB::take_n(label, cnt)`: `checked_sub(unit_cost * cnt)` with a
wrapping product, updating on `Some`. -/
def take_n (h : HTB) (label cnt : Nat) : Bool × HTB :=
  let b := h.state.getD label bkt0
  let c := wrap64 (h.unit_cost * cnt)
  if c ≤ b.value then
    (true, { h with state := h.state.set label ⟨b.cap, b.value - c⟩ })
  else (false, h)

/-- A public mutating call on a constructed engine. -/
inductive Call where
  | advance_ns (t : Nat)
  | advance (d : Nat)
  | take (l : Nat)
  | take_n (l n : Nat)
deriving DecidableEq

/-- Execute one call, keeping the post-state (the Boolean results of
`take`/`take_n` are dropped). -/
def execCall (h : HTB) : Call → HTB
  | .advance_ns t => advance_ns h t
  | .advance d => advance h d
  | .take l => (take h l).2
  | .take_n l n => (take_n h l n).2

/-- Execute a finite sequence of calls. -/
def runCalls (h : HTB) (cs : List Call) : HTB :=
  cs.foldl execCall h

/-- A single bucket with rate 1 token per second and capacity 1000: its true
refill time is 1000 s, but `time_limit = unit_cost * sum(rates) = 1 s`. -/
def cfgA : List BucketCfg := [⟨0, none, 1, 1000000000, 1000⟩]

/-- Engine built from `cfgA`, with the bucket fully drained. -/
def htbA0 : HTB := (take_n (fromNew cfgA) 0 1000).2

/-- Same shape as `cfgA`, used for the `advance` truncation counterexample. -/
def cfgB : List BucketCfg := [⟨0, none, 1, 1000000000, 1000⟩]

/-- Engine built from `cfgB`, with the bucket fully drained. -/
def htbB0 : HTB := (take_n (fromNew cfgB) 0 1000).2

/-- A single bucket whose `unit_cost` is `2 ^ 32`, so that
`unit_cost * cnt` overflows `usize` at `cnt = 2 ^ 32`. -/
def cfgC : List BucketCfg := [⟨0, none, 1, 2 ^ 32, 1⟩]

/-- The engine built from `cfgC`. -/
def htbC : HTB := fromNew cfgC

/-- A bucket whose rate is 1 token per 0 ns (`Duration::ZERO` is a valid
Rust `Duration`). -/
def cfgD : List BucketCfg := [⟨0, none, 1, 0, 1⟩]

/-- A root with two children in DFS order. -/
def cfgE : List BucketCfg :=
  [⟨0, none, 1, 1, 1⟩, ⟨1, some 0, 1, 1, 1⟩, ⟨2, some 0, 1, 1, 1⟩]

/-- A full parent (capacity 10) with an initially drained child whose rate
(5 per ns) exceeds the root inflow rate (1 per ns). -/
def cfgF : List BucketCfg := [⟨0, none, 1, 1, 10⟩, ⟨1, some 0, 5, 1, 5⟩]

/-- Engine built from `cfgF`, with the child bucket drained. -/
def htbF : HTB := (take_n (fromNew cfgF) 1 5).2

/-- Two buckets whose durations are both `2 ^ 64` ns (representable as a
Rust `Duration`): the `u128` product in the lcm fold is `2 ^ 128`, which
wraps to 0 in a release build, so `new` accepts them with `unit_cost = 0`
even though the true lcm does not fit in `usize`. -/
def cfgG : List BucketCfg := [⟨0, none, 0, 2 ^ 64, 0⟩, ⟨1, some 0, 0, 2 ^ 64, 0⟩]

/-- The mathematical least common multiple of a list of durations
(the quantity `U = lcm(d_1, ..., d_N)` of the spec). -/
def listLcm : List Nat → Nat
  | [] => 1
  | d :: ds => ds.foldl Nat.lcm d

/-- Recognizer for `Deposit k`. -/
def isDep (k : Nat) : Op → Bool
  | Op.Deposit j => j == k
  | _ => false

/-- Does an op read or write bucket `k`? -/
def opTouches (k : Nat) : Op → Bool
  | Op.Inflow _ => false
  | Op.Take j _ => j == k
  | Op.Deposit j => j == k

/-- The last op of `ops` that touches bucket `k` is `Deposit k`.  This is
the structural property of a compiled op list that makes `advance_ns`
restore `value ≤ cap` for bucket `k` no matter what happened before. -/
def lastDep (k : Nat) (ops : List Op) : Prop :=
  ops.reverse.find? (opTouches k) = some (Op.Deposit k)

/-- The claimed invariant: each bucket holds a value at most its cap. -/
def ValInv (h : HTB) : Prop :=
  ∀ i, i < h.state.length →
    (h.state.getD i bkt0).value ≤ (h.state.getD i bkt0).cap

/-- Structural well-formedness produced by the compiler: for each bucket
the last touching op is its `Deposit`. -/
def WFdep (h : HTB) : Prop :=
  ∀ k, k < h.state.length → lastDep k h.ops

/-- The rate carried by an `Inflow`/`Take` op (none for `Deposit`). -/
def opRate : Op → Option Nat
  | .Inflow r => some r
  | .Take _ r => some r
  | .Deposit _ => none

/-- Does one interpreter step stay within `usize` (no wrap)? -/
def stepOkB (td : Nat) (acc : Nat × List Bucket) (o : Op) : Bool :=
  match o with
  | .Inflow rate => decide (rate * td ≤ usizeMax)
  | .Take k rate => decide (acc.1 + (acc.2.getD k bkt0).value ≤ usizeMax) &&
      decide (rate * td ≤ usizeMax)
  | .Deposit k => decide (acc.1 + (acc.2.getD k bkt0).value ≤ usizeMax)

/-- Does a whole `advance_ns` interpretation stay within `usize`? -/
def runOkB (td : Nat) : List Op → (Nat × List Bucket) → Bool
  | [], _ => true
  | o :: ops, acc => stepOkB td acc o && runOkB td ops (stepOp td acc o)

/-! The development below settles the spec claims: helper lemmas first,
then one theorem per claim (with counterexamples and witnesses). -/

theorem wrap64_of_le {n : Nat} (h : n ≤ usizeMax) : wrap64 n = n := by
  have h2 : n < 2 ^ 64 := by
    have : usizeMax < 2 ^ 64 := by decide
    omega
  simpa [wrap64] using Nat.mod_eq_of_lt h2

theorem getD_set_self {l : List Bucket} {i : Nat} (hi : i < l.length)
    (a d : Bucket) : (l.set i a).getD i d = a := by
  simp [List.getD_eq_getElem?_getD, List.getElem?_set_self hi]

theorem getD_set_ne {l : List Bucket} {i j : Nat} (h : i ≠ j) (a d : Bucket) :
    (l.set i a).getD j d = l.getD j d := by
  simp [List.getD_eq_getElem?_getD, List.getElem?_set_ne h]

theorem set_getD_eq_self :
    ∀ (l : List Bucket) (i : Nat) (d : Bucket), i < l.length →
      l.set i (l.getD i d) = l
  | [], i, _, h => by simp at h
  | _ :: _, 0, _, _ => by simp
  | b :: l, i + 1, d, h => by
    simp only [List.getD_cons_succ, List.set_cons_succ, List.cons.injEq, true_and]
    exact set_getD_eq_self l i d (by simpa using h)

/-- C3: for every engine state and every delta, `advance_ns delta_t` yields
exactly the same state as `advance_ns (min delta_t time_limit)`: any delta
larger than `time_limit` behaves identically to `time_limit`. -/
theorem advance_ns_saturation (h : HTB) (t : Nat) :
    advance_ns h t = advance_ns h (min t h.time_limit) := by
  have hm : min (min t h.time_limit) h.time_limit = min t h.time_limit :=
    Nat.min_eq_left (Nat.min_le_right _ _)
  simp only [advance_ns, hm]

/-- C9 counterexample: for a `Duration` of `2 ^ 64` ns the cast
`delta.as_nanos() as usize` truncates to 0, so `advance` is a no-op, while
the claimed clamped form `advance_ns (min delta usize::MAX)` refills the
drained bucket; the two results differ. -/
theorem advance_trunc_cex :
    ¬ advance htbB0 (2 ^ 64) = advance_ns htbB0 (min (2 ^ 64) usizeMax) := by
  decide

/-- C9 amended: `advance delta` always behaves as
`advance_ns (delta.as_nanos() mod 2 ^ 64)` (truncation); it agrees with the
clamped form `advance_ns (min delta usize::MAX)` exactly when the
nanosecond count already fits in `usize`. -/
theorem advance_trunc (h : HTB) (d : Nat) (hd : d ≤ usizeMax) :
    advance h d = advance_ns h (min d usizeMax) := by
  unfold advance
  rw [wrap64_of_le hd, Nat.min_eq_left hd]

/-- Witness for `advance_trunc` at a concrete engine and delta. -/
theorem advance_trunc_w :
    advance htbB0 1000000 = advance_ns htbB0 (min 1000000 usizeMax) :=
  advance_trunc htbB0 1000000 (by decide)

/-- C2 counterexample: with `unit_cost = 2 ^ 32` and `cnt = 2 ^ 32` the cost
`unit_cost * cnt` wraps to 0, so `take_n` returns `true` yet debits nothing,
not the claimed `cnt * unit_cost = 2 ^ 64`. -/
theorem take_n_debit_cex :
    (take_n htbC 0 (2 ^ 32)).1 = true ∧
    ¬ ((take_n htbC 0 (2 ^ 32)).2.state.getD 0 bkt0).value +
        htbC.unit_cost * 2 ^ 32 = (htbC.state.getD 0 bkt0).value := by
  decide

/-- C2 amended: for an in-range label and a count whose cost
`unit_cost * n` fits in `usize`, `take_n` either returns `false` leaving the
engine unchanged, or returns `true` and decreases `state[L].value` by exactly
`n * unit_cost`, leaving every other bucket and the cap unchanged; moreover
`take_n L 0` returns `true` without any state change, and `take` is the
`n = 1` case of `take_n`. -/
theorem take_n_debit (h : HTB) (L n : Nat) (hL : L < h.state.length)
    (hu : h.unit_cost ≤ usizeMax) (hn : h.unit_cost * n ≤ usizeMax) :
    (((take_n h L n).1 = false ∧ (take_n h L n).2 = h) ∨
      ((take_n h L n).1 = true ∧
        ((take_n h L n).2.state.getD L bkt0).value + h.unit_cost * n =
          (h.state.getD L bkt0).value ∧
        ((take_n h L n).2.state.getD L bkt0).cap = (h.state.getD L bkt0).cap ∧
        ∀ j, j ≠ L → (take_n h L n).2.state.getD j bkt0 = h.state.getD j bkt0)) ∧
    take_n h L 0 = (true, h) ∧
    take h L = take_n h L 1 := by
  refine ⟨?_, ?_, ?_⟩
  · unfold take_n
    rw [wrap64_of_le hn]
    by_cases hc : h.unit_cost * n ≤ (h.state.getD L bkt0).value
    · refine Or.inr ⟨?_, ?_, ?_, ?_⟩
      · rw [if_pos hc]
      · rw [if_pos hc]
        show ((h.state.set L _).getD L bkt0).value + _ = _
        rw [getD_set_self hL]
        exact Nat.sub_add_cancel hc
      · rw [if_pos hc]
        show ((h.state.set L _).getD L bkt0).cap = _
        rw [getD_set_self hL]
      · intro j hj
        rw [if_pos hc]
        show (h.state.set L _).getD j bkt0 = _
        rw [getD_set_ne (fun e => hj e.symm)]
    · rw [if_neg hc]
      exact Or.inl ⟨rfl, rfl⟩
  · unfold take_n
    have h0 : wrap64 (h.unit_cost * 0) = 0 := by simp [wrap64]
    rw [h0]
    simp only [Nat.zero_le, if_pos, Nat.sub_zero]
    have : h.state.set L (h.state.getD L bkt0) = h.state :=
      set_getD_eq_self _ _ _ hL
    rw [this]
  · unfold take take_n
    rw [Nat.mul_one, wrap64_of_le hu]

/-- Witness for `take_n_debit` at a concrete engine. -/
theorem take_n_debit_w : take htbC 0 = take_n htbC 0 1 :=
  (take_n_debit htbC 0 1 (by decide) (by decide) (by decide)).2.2

/-- C10: for an in-range label and a count whose cost fits in `usize`,
`take_n` succeeds iff `peek_n` holds on the pre-call state, `take` succeeds
iff `peek` holds, `peek` is `peek_n` at 1, and `take` has the same result
and effect as `take_n` at 1. -/
theorem take_peek_agree (h : HTB) (L n : Nat) (hL : L < h.state.length)
    (hu : h.unit_cost ≤ usizeMax) (hn : h.unit_cost * n ≤ usizeMax) :
    (take_n h L n).1 = peek_n h L n ∧
    (take h L).1 = peek h L ∧
    peek h L = peek_n h L 1 ∧
    take h L = take_n h L 1 := by
  refine ⟨?_, ?_, ?_, ?_⟩
  · unfold take_n peek_n
    by_cases hc : wrap64 (h.unit_cost * n) ≤ (h.state.getD L bkt0).value
    · rw [if_pos hc, decide_eq_true hc]
    · rw [if_neg hc, decide_eq_false hc]
  · unfold take peek
    by_cases hc : h.unit_cost ≤ (h.state.getD L bkt0).value
    · rw [if_pos hc, decide_eq_true hc]
    · rw [if_neg hc, decide_eq_false hc]
  · unfold peek peek_n
    rw [Nat.mul_one, wrap64_of_le hu]
  · unfold take take_n
    rw [Nat.mul_one, wrap64_of_le hu]

/-- Witness for `take_peek_agree` at a concrete engine. -/
theorem take_peek_agree_w : (take_n htbC 0 1).1 = peek_n htbC 0 1 :=
  (take_peek_agree htbC 0 1 (by decide) (by decide) (by decide)).1

/-- C5 failing input, evaluated: for `cfgA` (rate 1 token/s, capacity 1000,
so the true refill time is 1000 s) the computed
`time_limit = unit_cost * sum(rates)` is only 1 s; with `a = b = 1 s`
(`a + b > time_limit`) running `advance_ns a; advance_ns b` differs from
`advance_ns (a + b)`, and the single run leaves the bucket far below its
cap - contradicting both halves of the claim and the doc comment in the
source that `time_limit` is the "Maximum time required to refill every
possible cell". -/
theorem advance_time_limit_bug :
    1000000000 + 1000000000 > htbA0.time_limit ∧
    ¬ advance_ns (advance_ns htbA0 1000000000) 1000000000 =
        advance_ns htbA0 (1000000000 + 1000000000) ∧
    ¬ ((advance_ns htbA0 (1000000000 + 1000000000)).state.getD 0 bkt0).value =
        ((advance_ns htbA0 (1000000000 + 1000000000)).state.getD 0 bkt0).cap := by
  decide

/-- C7 failing input, evaluated: a single bucket whose rate duration is
`Duration::ZERO` makes the scaled-rate computation divide by zero, so `new`
panics (`none`) instead of returning one of the three errors. -/
theorem new_zero_duration_panics : new cfgD = none := by decide

/-- C4 counterexample: in `cfgF` the parent starts full at 10 units and its
drained child (rate 5/ns, cap 5) absorbs 5 units during `advance_ns 1`, so
the stored value of the parent drops from 10 to 6: `advance_ns` does decrease
`state[0].value`. -/
theorem advance_mono_cex :
    ((advance_ns htbF 1).state.getD 0 bkt0).value <
      (htbF.state.getD 0 bkt0).value := by
  decide

/-- C6 counterexample: compiling `cfgE` (root 0 with children 1, 2), bucket 0
is never popped - it stays on the ancestor stack until the final drain - so
under the claim it would receive exactly one `Deposit` (from the drain); the
compiled op list contains two `Deposit 0`, because the pop loop triggered by
child 2 also emits a `Deposit` for the retained stack top. -/
theorem compile_deposit_cex :
    newOk cfgE = true ∧
    ((fromNew cfgE).ops.filter (isDep 0)).length = 2 := by
  decide

/-- C8 counterexample: `new cfgG` succeeds although the true lcm of the two
`2 ^ 64` ns durations is `2 ^ 64`, which does not fit in `usize`: the `u128`
product in the lcm fold wraps to 0, so the engine is built with
`unit_cost = 0 ≠ lcm`. -/
theorem scaling_cex :
    newOk cfgG = true ∧
    ¬ (fromNew cfgG).unit_cost = listLcm (cfgG.map BucketCfg.rateDur) := by
  decide

theorem getD_oob {l : List Bucket} {i : Nat} (h : l.length ≤ i) (d : Bucket) :
    l.getD i d = d := by
  simp [List.getD_eq_getElem?_getD, List.getElem?_eq_none h]

theorem stepOp_length (td : Nat) (acc : Nat × List Bucket) (o : Op) :
    (stepOp td acc o).2.length = acc.2.length := by
  cases o <;> simp [stepOp]

theorem runOps_length (td : Nat) :
    ∀ (ops : List Op) (acc : Nat × List Bucket),
      (runOps td ops acc).2.length = acc.2.length := by
  intro ops
  induction ops with
  | nil => intro acc; rfl
  | cons o ops ih =>
    intro acc
    show (runOps td ops (stepOp td acc o)).2.length = _
    rw [ih (stepOp td acc o), stepOp_length]

theorem stepOp_untouched {k : Nat} {o : Op} (hk : opTouches k o = false)
    (td : Nat) (acc : Nat × List Bucket) :
    (stepOp td acc o).2.getD k bkt0 = acc.2.getD k bkt0 := by
  cases o with
  | Inflow r => rfl
  | Take j r =>
    have hjk : j ≠ k := by simpa [opTouches] using hk
    exact getD_set_ne hjk _ _
  | Deposit j =>
    have hjk : j ≠ k := by simpa [opTouches] using hk
    exact getD_set_ne hjk _ _

theorem stepOp_deposit_le (td : Nat) (acc : Nat × List Bucket) (k : Nat) :
    ((stepOp td acc (Op.Deposit k)).2.getD k bkt0).value ≤
      ((stepOp td acc (Op.Deposit k)).2.getD k bkt0).cap := by
  simp only [stepOp]
  by_cases hk : k < acc.2.length
  · rw [getD_set_self hk]
    exact min_le_left _ _
  · have hle : acc.2.length ≤ k := Nat.le_of_not_lt hk
    rw [List.set_eq_of_length_le hle, getD_oob hle]
    exact Nat.le.refl

theorem runOps_append (td : Nat) (l1 l2 : List Op) (acc : Nat × List Bucket) :
    runOps td (l1 ++ l2) acc = runOps td l2 (runOps td l1 acc) := by
  simp [runOps, List.foldl_append]

theorem runOps_lastDep (td k : Nat) :
    ∀ (ops : List Op) (acc : Nat × List Bucket), lastDep k ops →
      ((runOps td ops acc).2.getD k bkt0).value ≤
        ((runOps td ops acc).2.getD k bkt0).cap := by
  intro ops
  induction ops using List.reverseRecOn with
  | nil =>
    intro acc hld
    exact absurd hld (by simp [lastDep])
  | append_singleton l o ih =>
    intro acc hld
    have hrev : (l ++ [o]).reverse = o :: l.reverse := by simp
    rw [runOps_append]
    by_cases ht : opTouches k o = true
    · have ho : o = Op.Deposit k := by
        have h1 : (l ++ [o]).reverse.find? (opTouches k) = some o := by
          rw [hrev]
          exact List.find?_cons_of_pos _ ht
        have h2 := hld
        unfold lastDep at h2
        rw [h1] at h2
        exact Option.some.inj h2
      subst ho
      exact stepOp_deposit_le td (runOps td l acc) k
    · have hf : opTouches k o = false := by
        cases hb : opTouches k o
        · rfl
        · exact absurd hb ht
      have hld' : lastDep k l := by
        have h1 : (l ++ [o]).reverse.find? (opTouches k) =
            l.reverse.find? (opTouches k) := by
          rw [hrev]
          exact List.find?_cons_of_neg _ (by simp [hf])
        unfold lastDep at hld ⊢
        rw [h1] at hld
        exact hld
      show ((stepOp td (runOps td l acc) o).2.getD k bkt0).value ≤
        ((stepOp td (runOps td l acc) o).2.getD k bkt0).cap
      rw [stepOp_untouched hf]
      exact ih acc hld'

theorem advance_ns_inv (h : HTB) (hwf : WFdep h) (t : Nat) :
    ValInv (advance_ns h t) := by
  intro i hi
  have hlen : (advance_ns h t).state.length = h.state.length :=
    runOps_length _ _ _
  exact runOps_lastDep (min t h.time_limit) i h.ops (0, h.state)
    (hwf i (hlen ▸ hi))

theorem take_n_inv (h : HTB) (hinv : ValInv h) (L n : Nat) :
    ValInv (take_n h L n).2 := by
  unfold take_n
  by_cases hc : wrap64 (h.unit_cost * n) ≤ (h.state.getD L bkt0).value
  · rw [if_pos hc]
    intro i hi
    simp only [List.length_set] at hi
    by_cases hiL : L = i
    · subst hiL
      show (((h.state.set L _).getD L bkt0)).value ≤ _
      rw [getD_set_self hi]
      exact le_trans (Nat.sub_le _ _) (hinv L hi)
    · show (((h.state.set L _).getD i bkt0)).value ≤ _
      rw [getD_set_ne hiL]
      exact hinv i hi
  · rw [if_neg hc]
    exact hinv

theorem take_inv (h : HTB) (hinv : ValInv h) (L : Nat) : ValInv (take h L).2 := by
  unfold take
  by_cases hc : h.unit_cost ≤ (h.state.getD L bkt0).value
  · rw [if_pos hc]
    intro i hi
    simp only [List.length_set] at hi
    by_cases hiL : L = i
    · subst hiL
      show (((h.state.set L _).getD L bkt0)).value ≤ _
      rw [getD_set_self hi]
      exact le_trans (Nat.sub_le _ _) (hinv L hi)
    · show (((h.state.set L _).getD i bkt0)).value ≤ _
      rw [getD_set_ne hiL]
      exact hinv i hi
  · rw [if_neg hc]
    exact hinv

theorem execCall_length (h : HTB) (c : Call) :
    (execCall h c).state.length = h.state.length := by
  cases c with
  | advance_ns t => exact runOps_length _ _ _
  | advance d => exact runOps_length _ _ _
  | take l =>
    show ((take h l).2).state.length = _
    unfold take
    by_cases hc : h.unit_cost ≤ (h.state.getD l bkt0).value
    · rw [if_pos hc]; exact List.length_set _ _ _
    · rw [if_neg hc]
  | take_n l n =>
    show ((take_n h l n).2).state.length = _
    unfold take_n
    by_cases hc : wrap64 (h.unit_cost * n) ≤ (h.state.getD l bkt0).value
    · rw [if_pos hc]; exact List.length_set _ _ _
    · rw [if_neg hc]

theorem execCall_ops (h : HTB) (c : Call) : (execCall h c).ops = h.ops := by
  cases c with
  | advance_ns t => rfl
  | advance d => rfl
  | take l =>
    show ((take h l).2).ops = _
    unfold take
    by_cases hc : h.unit_cost ≤ (h.state.getD l bkt0).value
    · rw [if_pos hc]
    · rw [if_neg hc]
  | take_n l n =>
    show ((take_n h l n).2).ops = _
    unfold take_n
    by_cases hc : wrap64 (h.unit_cost * n) ≤ (h.state.getD l bkt0).value
    · rw [if_pos hc]
    · rw [if_neg hc]

theorem execCall_keeps (h : HTB) (c : Call) (hinv : ValInv h) (hwf : WFdep h) :
    ValInv (execCall h c) ∧ WFdep (execCall h c) := by
  constructor
  · cases c with
    | advance_ns t => exact advance_ns_inv h hwf t
    | advance d => exact advance_ns_inv h hwf _
    | take l => exact take_inv h hinv l
    | take_n l n => exact take_n_inv h hinv l n
  · intro k hk
    rw [execCall_ops]
    exact hwf k (by rw [execCall_length] at hk; exact hk)

theorem runCalls_keeps (cs : List Call) :
    ∀ (h : HTB), ValInv h → WFdep h →
      ValInv (runCalls h cs) ∧ WFdep (runCalls h cs) := by
  induction cs with
  | nil => intro h hi hw; exact ⟨hi, hw⟩
  | cons c cs ih =>
    intro h hi hw
    have hstep := execCall_keeps h c hi hw
    exact ih (execCall h c) hstep.1 hstep.2

theorem runCalls_ops (cs : List Call) :
    ∀ (h : HTB), (runCalls h cs).ops = h.ops := by
  induction cs with
  | nil => intro h; rfl
  | cons c cs ih =>
    intro h
    show (runCalls (execCall h c) cs).ops = _
    rw [ih (execCall h c), execCall_ops]

theorem head?_mem {l : List Nat} {a : Nat} (h : l.head? = some a) : a ∈ l := by
  cases l with
  | nil => exact absurd h (by simp)
  | cons x xs =>
    have hx : x = a := Option.some.inj h
    exact hx ▸ List.mem_cons_self x xs

theorem find?_deposits_mem (k : Nat) :
    ∀ (l : List Nat), k ∈ l →
      (l.map Op.Deposit).find? (opTouches k) = some (Op.Deposit k) := by
  intro l
  induction l with
  | nil => intro h; cases h
  | cons c l ih =>
    intro hk
    by_cases hc : c = k
    · subst hc
      exact List.find?_cons_of_pos _ (by simp [opTouches])
    · have hkl : k ∈ l := by
        rcases List.mem_cons.mp hk with h | h
        · exact absurd h.symm hc
        · exact h
      rw [List.map_cons, List.find?_cons_of_neg _ (by simp [opTouches, hc])]
      exact ih hkl

theorem find?_deposits_not_mem (k : Nat) (l : List Nat) (hk : k ∉ l) :
    (l.map Op.Deposit).find? (opTouches k) = none := by
  rw [List.find?_eq_none]
  intro x hx
  rcases List.mem_map.mp hx with ⟨c, hc, rfl⟩
  simp only [opTouches, beq_iff_eq]
  exact fun e => hk (e ▸ hc)

theorem rev3 (a b : List Op) (c : Op) :
    (a ++ b ++ [c]).reverse = c :: (b.reverse ++ a.reverse) := by simp

theorem popLoop_some :
    ∀ (stack : List Nat) (parent : Option Nat) (ds : List Op) (st' : List Nat),
      popLoop parent stack = some (ds, st') →
      ∃ dropped p, parent = some p ∧ stack = dropped ++ st' ∧
        st'.head? = some p ∧ (∀ x ∈ dropped, some x ≠ parent) ∧
        ds = dropped.map Op.Deposit ++ [Op.Deposit p] := by
  intro stack
  induction stack with
  | nil => intro parent ds st' H; exact absurd H (by simp [popLoop])
  | cons q rest ih =>
    intro parent ds st' H
    unfold popLoop at H
    by_cases hq : some q = parent
    · rw [if_pos hq] at H
      have hinj := Option.some.inj H
      have hds : Op.Deposit q :: [] = ds := by
        have := congrArg Prod.fst hinj
        simpa using this
      have hst : q :: rest = st' := congrArg Prod.snd hinj
      refine ⟨[], q, hq.symm, ?_, ?_, ?_, ?_⟩
      · rw [← hst]; rfl
      · rw [← hst]; rfl
      · intro x hx; cases hx
      · rw [← hds]; rfl
    · rw [if_neg hq] at H
      rcases hrec : popLoop parent rest with _ | pr
      · rw [hrec] at H; exact absurd H (by simp)
      · obtain ⟨ds1, st1⟩ := pr
        rw [hrec] at H
        have hinj := Option.some.inj H
        have hds : Op.Deposit q :: ds1 = ds := congrArg Prod.fst hinj
        have hst : st1 = st' := congrArg Prod.snd hinj
        obtain ⟨dropped, p, hp, hsplit, hhead, hnot, hds1⟩ :=
          ih parent ds1 st1 hrec
        refine ⟨q :: dropped, p, hp, ?_, hst ▸ hhead, ?_, ?_⟩
        · rw [← hst, List.cons_append, ← hsplit]
        · intro x hx
          rcases List.mem_cons.mp hx with rfl | hx
          · exact hq
          · exact hnot x hx
        · rw [← hds, hds1]; rfl

theorem popLoop_none_iff :
    ∀ (stack : List Nat) (parent : Option Nat),
      popLoop parent stack = none ↔ ∀ x ∈ stack, some x ≠ parent := by
  intro stack
  induction stack with
  | nil => intro parent; simp [popLoop]
  | cons q rest ih =>
    intro parent
    unfold popLoop
    by_cases hq : some q = parent
    · rw [if_pos hq]
      constructor
      · intro H; exact absurd H (by simp)
      · intro H; exact absurd hq (H q (List.mem_cons_self q rest))
    · rw [if_neg hq]
      rcases hrec : popLoop parent rest with _ | pr
      · constructor
        · intro _ x hx
          rcases List.mem_cons.mp hx with rfl | hx
          · exact hq
          · exact (ih parent).mp hrec x hx
        · intro _; rfl
      · obtain ⟨ds1, st1⟩ := pr
        constructor
        · intro H; exact absurd H (by simp)
        · intro H
          have : popLoop parent rest = none :=
            (ih parent).mpr (fun x hx => H x (List.mem_cons_of_mem q hx))
          rw [hrec] at this
          exact absurd this (by simp)

theorem buildLoop_invariant (u : Nat) :
    ∀ (rest : List (BucketCfg × Nat)) (ix : Nat) (ops : List Op)
      (items : List Bucket) (stack : List Nat)
      (ops' : List Op) (items' : List Bucket) (stack' : List Nat),
      buildLoop u rest ix ops items stack = .ok (ops', items', stack') →
      items.length = ix →
      (∀ x ∈ stack, x < ix) →
      stack.Nodup →
      (∀ k, k < ix → k ∈ stack ∨ lastDep k ops) →
      items'.length = ix + rest.length ∧
      (∀ x ∈ stack', x < items'.length) ∧
      stack'.Nodup ∧
      (∀ k, k < items'.length → k ∈ stack' ∨ lastDep k ops') ∧
      items' = items ++ rest.map
        (fun pr => ⟨wrap64 (pr.1.capacity * u), wrap64 (pr.1.capacity * u)⟩) ∧
      (∀ pr ∈ rest, wrap128 (pr.1.capacity * u) ≤ usizeMax) ∧
      ops'.filterMap opRate = ops.filterMap opRate ++ rest.map Prod.snd ∧
      (∀ k, (∀ pr ∈ rest, pr.1.parent ≠ some k) →
        (∀ r, Op.Take k r ∉ ops) → (∀ r, Op.Take k r ∉ ops')) := by
  intro rest
  induction rest with
  | nil =>
    intro ix ops items stack ops' items' stack' H hlen hbnd hnd hcov
    obtain ⟨h1, h2, h3⟩ : ops = ops' ∧ items = items' ∧ stack = stack' := by
      simpa [buildLoop] using H
    subst h1; subst h2; subst h3
    refine ⟨by simpa using hlen, ?_, hnd, ?_, by simp, by simp, by simp, ?_⟩
    · intro x hx; rw [hlen]; exact hbnd x hx
    · intro k hk; exact hcov k (by rwa [hlen] at hk)
    · intro k _ hops; exact hops
  | cons pr rest ih =>
    intro ix ops items stack ops' items' stack' H hlen hbnd hnd hcov
    obtain ⟨cur, rate⟩ := pr
    simp only [buildLoop] at H
    by_cases h1 : ix ≠ cur.this
    · rw [if_pos h1] at H; exact absurd H (by simp)
    rw [if_neg h1] at H
    have hix : ix = cur.this := not_ne_iff.mp h1
    by_cases h2 : items.isEmpty ∧ cur.parent.isSome
    · rw [if_pos h2] at H; exact absurd H (by simp)
    rw [if_neg h2] at H
    by_cases h3 : usizeMax < wrap128 (cur.capacity * u)
    · rw [if_pos h3] at H; exact absurd H (by simp)
    rw [if_neg h3] at H
    rcases hpop : (if cur.parent = stack.head? then some (([] : List Op), stack)
        else popLoop cur.parent stack) with _ | ds_stack
    · rw [hpop] at H; exact absurd H (by simp)
    obtain ⟨ds, stack₁⟩ := ds_stack
    rw [hpop] at H
    -- facts about the pop phase
    have hfacts : (∃ dropped, stack = dropped ++ stack₁ ∧
        (∀ k, k ∈ dropped → k ∉ stack₁ →
          ds.reverse.find? (opTouches k) = some (Op.Deposit k))) ∧
        (∀ o ∈ ds, ∃ x, x ∈ stack ∧ o = Op.Deposit x) ∧
        (∀ p, cur.parent = some p → p ∈ stack₁) := by
      by_cases hpar : cur.parent = stack.head?
      · rw [if_pos hpar] at hpop
        have hinj := Option.some.inj hpop
        have hds : ([] : List Op) = ds := congrArg Prod.fst hinj
        have hst : stack = stack₁ := congrArg Prod.snd hinj
        refine ⟨⟨[], by rw [← hst]; rfl, ?_⟩, ?_, ?_⟩
        · intro k hk; cases hk
        · intro o ho; rw [← hds] at ho; cases ho
        · intro p hp
          rw [← hst]
          exact head?_mem (by rw [← hpar, hp])
      · rw [if_neg hpar] at hpop
        obtain ⟨dropped, p, hp, hsplit, hhead, hnot, hds⟩ :=
          popLoop_some stack cur.parent ds stack₁ hpop
        have hpmem : p ∈ stack₁ := head?_mem hhead
        refine ⟨⟨dropped, hsplit, ?_⟩, ?_, ?_⟩
        · intro k hk hk1
          have hpk : ¬ (p == k) = true := by
            simp only [beq_iff_eq]
            exact fun e => hk1 (e ▸ hpmem)
          rw [hds]
          rw [List.reverse_append, List.reverse_singleton, List.singleton_append,
            List.find?_cons_of_neg _ (by simpa [opTouches] using hpk),
            ← List.map_reverse]
          exact find?_deposits_mem k dropped.reverse (List.mem_reverse.mpr hk)
        · intro o ho
          rw [hds] at ho
          rcases List.mem_append.mp ho with ho | ho
          · rcases List.mem_map.mp ho with ⟨x, hx, rfl⟩
            exact ⟨x, by rw [hsplit]; exact List.mem_append_left _ hx, rfl⟩
          · have : o = Op.Deposit p := by simpa using ho
            exact ⟨p, by rw [hsplit]; exact List.mem_append_right _ hpmem, this⟩
        · intro p' hp'
          have : p' = p := by
            rw [hp'] at hp
            exact Option.some.inj hp
          exact this ▸ hpmem
    obtain ⟨⟨dropped, hsplit, hdropfind⟩, hdsdep, hparmem⟩ := hfacts
    have hstack₁sub : ∀ x ∈ stack₁, x ∈ stack := by
      intro x hx; rw [hsplit]; exact List.mem_append_right _ hx
    have hnd₁ : stack₁.Nodup := by
      rw [hsplit] at hnd
      exact hnd.of_append_right
    have hdisj : ∀ k, k ∈ dropped → k ∉ stack₁ := by
      rw [hsplit] at hnd
      intro k hk
      exact fun hk1 => (List.disjoint_of_nodup_append hnd) hk hk1
    -- the op emitted for the current bucket
    set opCur := (match cur.parent with
      | some p => Op.Take p rate
      | none => Op.Inflow rate) with hopCur
    have hopCur_touch : ∀ k, k ∉ stack₁ → opTouches k opCur = false := by
      intro k hk
      rcases hc : cur.parent with _ | p
      · simp [hopCur, hc, opTouches]
      · have hpmem := hparmem p hc
        simp only [hopCur, hc, opTouches, beq_eq_false_iff_ne]
        exact fun e => hk (e ▸ hpmem)
    have hopCur_rate : opRate opCur = some rate := by
      rcases hc : cur.parent with _ | p <;> simp [hopCur, hc, opRate]
    -- new preconditions
    have newlen : (items ++ [⟨wrap64 (cur.capacity * u), wrap64 (cur.capacity * u)⟩] :
        List Bucket).length = ix + 1 := by simp [hlen]
    have newbnd : ∀ x ∈ cur.this :: stack₁, x < ix + 1 := by
      intro x hx
      rcases List.mem_cons.mp hx with rfl | hx
      · omega
      · exact Nat.lt_succ_of_lt (hbnd x (hstack₁sub x hx))
    have newnd : (cur.this :: stack₁).Nodup := by
      refine List.nodup_cons.mpr ⟨?_, hnd₁⟩
      intro hmem
      have := hbnd cur.this (hstack₁sub _ hmem)
      omega
    have newcov : ∀ k, k < ix + 1 →
        k ∈ cur.this :: stack₁ ∨ lastDep k (ops ++ ds ++ [opCur]) := by
      intro k hk
      rcases Nat.lt_succ_iff_lt_or_eq.mp hk with hk | rfl
      · by_cases hks : k ∈ stack
        · rw [hsplit] at hks
          rcases List.mem_append.mp hks with hkd | hk1
          · refine Or.inr ?_
            unfold lastDep
            rw [rev3, List.find?_cons_of_neg _
              (by simp [hopCur_touch k (hdisj k hkd)]),
              List.find?_append, hdropfind k hkd (hdisj k hkd)]
            rfl
          · exact Or.inl (List.mem_cons_of_mem _ hk1)
        · rcases hcov k hk with hmem | hld
          · exact absurd hmem hks
          · refine Or.inr ?_
            have hknotin₁ : k ∉ stack₁ := fun h => hks (hstack₁sub k h)
            unfold lastDep
            rw [rev3, List.find?_cons_of_neg _ (by simp [hopCur_touch k hknotin₁]),
              List.find?_append]
            have hdsnone : ds.reverse.find? (opTouches k) = none := by
              rw [List.find?_eq_none]
              intro o ho
              obtain ⟨x, hx, rfl⟩ := hdsdep o (List.mem_reverse.mp ho)
              simp only [opTouches, beq_iff_eq]
              exact fun e => hks (e ▸ hx)
            rw [hdsnone]
            unfold lastDep at hld
            rw [hld]
            rfl
      · exact Or.inl (hix ▸ List.mem_cons_self _ _)
    obtain ⟨C1, C2, C3, C4, C5, C6, C7, C8⟩ :=
      ih (ix + 1) (ops ++ ds ++ [opCur]) _ (cur.this :: stack₁)
        ops' items' stack' H newlen newbnd newnd newcov
    refine ⟨by simpa using C1.trans (by omega), C2, C3, C4, ?_, ?_, ?_, ?_⟩
    · rw [C5]
      simp
    · intro pr hpr
      rcases List.mem_cons.mp hpr with rfl | hpr
      · exact Nat.le_of_not_lt h3
      · exact C6 pr hpr
    · rw [C7]
      have hdsnil : ds.filterMap opRate = [] := by
        rw [List.filterMap_eq_nil_iff]
        intro o ho
        obtain ⟨x, _, rfl⟩ := hdsdep o ho
        rfl
      simp [hdsnil, hopCur_rate]
    · intro k hpar' hops' r hmem
      have htail : ∀ pr ∈ rest, pr.1.parent ≠ some k :=
        fun pr hpr => hpar' pr (List.mem_cons_of_mem _ hpr)
      have hnew : ∀ r', Op.Take k r' ∉ ops ++ ds ++ [opCur] := by
        intro r' hmem'
        rcases List.mem_append.mp hmem' with hmem' | hmem'
        · rcases List.mem_append.mp hmem' with hmem' | hmem'
          · exact hops' r' hmem'
          · obtain ⟨x, _, he⟩ := hdsdep _ hmem'
            cases he
        · have : Op.Take k r' = opCur := by simpa using hmem'
          rcases hc : cur.parent with _ | p
          · rw [hopCur, hc] at this; cases this
          · rw [hopCur, hc] at this
            have hpk : p = k := by cases this; rfl
            exact hpar' (cur, rate) (List.mem_cons_self _ _) (by rw [hc, hpk])
      exact C8 k htail hnew r hmem

theorem computeUnit_parts (ds : List Nat) (u : Nat)
    (H : computeUnit ds = some (.ok u)) :
    u ≤ usizeMax ∧ ∃ d rest, ds = d :: rest ∧ rest.foldlM lcmR d = some u := by
  cases ds with
  | nil => exact absurd H (by simp [computeUnit])
  | cons d rest =>
    simp only [computeUnit] at H
    split at H
    next => exact absurd H (by simp)
    next v hf =>
      split at H
      next hv => exact absurd H (by simp)
      next hv =>
        have hvu : v = u := Except.ok.inj (Option.some.inj H)
        subst hvu
        exact ⟨Nat.le_of_not_lt hv, d, rest, rfl, hf⟩

theorem computeRates_spec (u : Nat) :
    ∀ (tokens : List BucketCfg) (rs : List Nat),
      computeRates u tokens = some (.ok rs) →
      rs = tokens.map (fun c => wrap128 (c.rateNum * u) / c.rateDur) ∧
      ∀ c ∈ tokens, c.rateDur ≠ 0 := by
  intro tokens
  induction tokens with
  | nil =>
    intro rs H
    have hrs : ([] : List Nat) = rs := Except.ok.inj (Option.some.inj H)
    exact ⟨hrs.symm, fun c hc => absurd hc (by simp)⟩
  | cons c rest ih =>
    intro rs H
    unfold computeRates at H
    rcases hsr : scaledRate u c with _ | esr
    · rw [hsr] at H; exact absurd H (by simp)
    rw [hsr] at H
    rcases esr with e | r
    · exact absurd H (by simp)
    rcases hcr : computeRates u rest with _ | ecr
    · rw [hcr] at H; exact absurd H (by simp)
    rw [hcr] at H
    rcases ecr with e | rs1
    · exact absurd H (by simp)
    have hrs : r :: rs1 = rs := Except.ok.inj (Option.some.inj H)
    obtain ⟨hmap, hnz⟩ := ih rs1 hcr
    have hc0 : c.rateDur ≠ 0 ∧ r = wrap128 (c.rateNum * u) / c.rateDur := by
      unfold scaledRate at hsr
      by_cases hd : c.rateDur = 0
      · rw [if_pos hd] at hsr; exact absurd hsr (by simp)
      · rw [if_neg hd] at hsr
        by_cases hq : usizeMax < wrap128 (c.rateNum * u) / c.rateDur
        · rw [if_pos hq] at hsr; exact absurd hsr (by simp)
        · rw [if_neg hq] at hsr
          exact ⟨hd, (Except.ok.inj (Option.some.inj hsr)).symm⟩
    refine ⟨?_, ?_⟩
    · rw [← hrs, List.map_cons, ← hc0.2, hmap]
    · intro x hx
      rcases List.mem_cons.mp hx with rfl | hx
      · exact hc0.1
      · exact hnz x hx

theorem new_ok_parts (tokens : List BucketCfg) (h : HTB)
    (H : new tokens = some (.ok h)) :
    ∃ u rates opsb items stk,
      computeUnit (tokens.map BucketCfg.rateDur) = some (.ok u) ∧
      computeRates u tokens = some (.ok rates) ∧
      buildLoop u (tokens.zip rates) 0 [] [] [] = .ok (opsb, items, stk) ∧
      h.state = items ∧
      h.ops = opsb ++ stk.map Op.Deposit ∧
      h.unit_cost = u ∧
      h.time_limit = wrap128 (u * sumR rates) ∧
      u ≤ usizeMax := by
  cases tokens with
  | nil => exact absurd H (by simp [new])
  | cons t0 rest =>
    simp only [new] at H
    by_cases hp : t0.parent.isSome
    · rw [if_pos hp] at H; exact absurd H (by simp)
    rw [if_neg hp] at H
    split at H
    next => exact absurd H (by simp)
    next e hcu => exact absurd H (by simp)
    next u hcu =>
      split at H
      next => exact absurd H (by simp)
      next e hcr => exact absurd H (by simp)
      next rates hcr =>
        split at H
        next e hbl => exact absurd H (by simp)
        next opsb items stk hbl =>
          split at H
          next hlim => exact absurd H (by simp)
          next hlim =>
            have hh : (⟨items, opsb ++ stk.map Op.Deposit, u,
                wrap128 (u * sumR rates)⟩ : HTB) = h :=
              Except.ok.inj (Option.some.inj H)
            have hle : u ≤ usizeMax := (computeUnit_parts _ u hcu).1
            exact ⟨u, rates, opsb, items, stk, hcu, hcr, hbl,
              by rw [← hh], by rw [← hh], by rw [← hh], by rw [← hh], hle⟩

theorem getD_mem {l : List Bucket} {i : Nat} (hi : i < l.length) (d : Bucket) :
    l.getD i d ∈ l := by
  rw [List.getD_eq_getElem?_getD, List.getElem?_eq_getElem hi]
  exact List.getElem_mem hi

theorem new_WF (tokens : List BucketCfg) (h : HTB)
    (H : new tokens = some (.ok h)) : ValInv h ∧ WFdep h := by
  obtain ⟨u, rates, opsb, items, stk, hcu, hcr, hbl, hstate, hops, _, _, _⟩ :=
    new_ok_parts tokens h H
  obtain ⟨C1, C2, C3, C4, C5, C6, C7, C8⟩ :=
    buildLoop_invariant u (tokens.zip rates) 0 [] [] [] opsb items stk hbl
      rfl (by intro x hx; cases hx) List.nodup_nil (by intro k hk; omega)
  have hvc : ∀ b ∈ items, b.value = b.cap := by
    rw [C5]
    intro b hb
    simp only [List.nil_append, List.mem_map] at hb
    obtain ⟨pr, _, rfl⟩ := hb
    rfl
  constructor
  · intro i hi
    rw [hstate] at hi ⊢
    exact Nat.le_of_eq (hvc _ (getD_mem hi bkt0))
  · intro k hk
    rw [hstate] at hk
    rw [hops]
    unfold lastDep
    rw [List.reverse_append, List.find?_append, ← List.map_reverse]
    by_cases hmem : k ∈ stk
    · rw [find?_deposits_mem k stk.reverse (List.mem_reverse.mpr hmem)]
      rfl
    · rw [find?_deposits_not_mem k stk.reverse
        (fun hmr => hmem (List.mem_reverse.mp hmr))]
      rcases C4 k hk with hm | hld
      · exact absurd hm hmem
      · unfold lastDep at hld
        rw [Option.none_or]
        exact hld

/-- C1: for every HTB built by a successful `new` and every finite sequence
of `advance_ns`/`advance`/`take`/`take_n` calls, after every call it holds
that `state[i].value ≤ state[i].cap` for every bucket index `i`. -/
theorem htb_value_le_cap (tokens : List BucketCfg) (h : HTB)
    (H : new tokens = some (Except.ok h)) (cs : List Call) :
    ∀ i, i < (runCalls h cs).state.length →
      ((runCalls h cs).state.getD i bkt0).value ≤
        ((runCalls h cs).state.getD i bkt0).cap := by
  obtain ⟨hinv, hwf⟩ := new_WF tokens h H
  exact (runCalls_keeps cs h hinv hwf).1

/-- Witness for `htb_value_le_cap` at a concrete tree and call sequence. -/
theorem htb_value_le_cap_w :
    ((runCalls (fromNew cfgE) [Call.take_n 1 1, Call.advance_ns 3]).state.getD 0
        bkt0).value ≤
      ((runCalls (fromNew cfgE) [Call.take_n 1 1, Call.advance_ns 3]).state.getD 0
        bkt0).cap :=
  htb_value_le_cap cfgE (fromNew cfgE) (by decide)
    [Call.take_n 1 1, Call.advance_ns 3] 0 (by decide)

theorem runOps_mono (td k : Nat) :
    ∀ (ops : List Op) (acc : Nat × List Bucket),
      runOkB td ops acc = true →
      (∀ r, Op.Take k r ∉ ops) →
      (acc.2.getD k bkt0).value ≤ (acc.2.getD k bkt0).cap →
      (acc.2.getD k bkt0).value ≤ ((runOps td ops acc).2.getD k bkt0).value ∧
      ((runOps td ops acc).2.getD k bkt0).value ≤
        ((runOps td ops acc).2.getD k bkt0).cap := by
  intro ops
  induction ops with
  | nil => intro acc _ _ hvc; exact ⟨Nat.le_refl _, hvc⟩
  | cons o ops ih =>
    intro acc hok hnt hvc
    have hok' : stepOkB td acc o = true ∧
        runOkB td ops (stepOp td acc o) = true := by
      simpa [runOkB, Bool.and_eq_true] using hok
    have hnt' : ∀ r, Op.Take k r ∉ ops :=
      fun r hr => hnt r (List.mem_cons_of_mem _ hr)
    have hstep : (acc.2.getD k bkt0).value ≤
        ((stepOp td acc o).2.getD k bkt0).value ∧
        ((stepOp td acc o).2.getD k bkt0).value ≤
          ((stepOp td acc o).2.getD k bkt0).cap := by
      cases o with
      | Inflow r => exact ⟨Nat.le_refl _, hvc⟩
      | Take j r =>
        have hjk : j ≠ k := by
          intro e
          subst e
          exact hnt r (List.mem_cons_self _ _)
        rw [stepOp_untouched (by simp [opTouches, hjk])]
        exact ⟨Nat.le_refl _, hvc⟩
      | Deposit j =>
        by_cases hjk : j = k
        · subst hjk
          have hbound : acc.1 + (acc.2.getD j bkt0).value ≤ usizeMax := by
            simpa [stepOkB] using hok'.1
          simp only [stepOp]
          rw [wrap64_of_le hbound]
          by_cases hk : j < acc.2.length
          · rw [getD_set_self hk]
            exact ⟨le_min hvc (Nat.le_add_left _ _), min_le_left _ _⟩
          · have hle : acc.2.length ≤ j := Nat.le_of_not_lt hk
            rw [List.set_eq_of_length_le hle, getD_oob hle]
            exact ⟨Nat.le.refl, Nat.le.refl⟩
        · rw [stepOp_untouched (by simp [opTouches, hjk])]
          exact ⟨Nat.le_refl _, hvc⟩
    have hfin := ih (stepOp td acc o) hok'.2 hnt' hstep.2
    exact ⟨le_trans hstep.1 hfin.1, hfin.2⟩

/-- C4 amended: `advance_ns` never decreases the stored value of a leaf
bucket - one that no configuration names as a parent - provided the
interpretation stays within `usize` (no wrap-around, checked by `runOkB`).
Internal buckets can decrease: their tokens flow down to children
(see the counterexample `advance_mono_cex`). -/
theorem advance_leaf_mono (tokens : List BucketCfg) (h : HTB)
    (H : new tokens = some (Except.ok h)) (cs : List Call) (k t : Nat)
    (Hleaf : ∀ c ∈ tokens, c.parent ≠ some k)
    (Hok : runOkB (min t (runCalls h cs).time_limit) (runCalls h cs).ops
        (0, (runCalls h cs).state) = true) :
    ((runCalls h cs).state.getD k bkt0).value ≤
      ((advance_ns (runCalls h cs) t).state.getD k bkt0).value := by
  obtain ⟨u, rates, opsb, items, stk, hcu, hcr, hbl, hstate, hops, _, _, _⟩ :=
    new_ok_parts tokens h H
  obtain ⟨_, _, _, _, _, _, _, C8⟩ :=
    buildLoop_invariant u (tokens.zip rates) 0 [] [] [] opsb items stk hbl
      rfl (by intro x hx; cases hx) List.nodup_nil (by intro k' hk'; omega)
  have hnt : ∀ r, Op.Take k r ∉ h.ops := by
    intro r hmem
    rw [hops] at hmem
    rcases List.mem_append.mp hmem with hm | hm
    · refine C8 k ?_ (by intro r' hr'; cases hr') r hm
      intro pr hpr
      exact Hleaf pr.1 (List.of_mem_zip hpr).1
    · rcases List.mem_map.mp hm with ⟨x, _, he⟩
      cases he
  have hnt' : ∀ r, Op.Take k r ∉ (runCalls h cs).ops := by
    rw [runCalls_ops]; exact hnt
  obtain ⟨hinv0, hwf0⟩ := new_WF tokens h H
  have hinv := (runCalls_keeps cs h hinv0 hwf0).1
  have hvc : ((runCalls h cs).state.getD k bkt0).value ≤
      ((runCalls h cs).state.getD k bkt0).cap := by
    by_cases hk : k < (runCalls h cs).state.length
    · exact hinv k hk
    · rw [getD_oob (Nat.le_of_not_lt hk)]
      exact Nat.le.refl
  exact (runOps_mono (min t (runCalls h cs).time_limit) k (runCalls h cs).ops
    (0, (runCalls h cs).state) Hok hnt' hvc).1

/-- Witness for `advance_leaf_mono` at a concrete engine and leaf. -/
theorem advance_leaf_mono_w :
    ((runCalls (fromNew cfgF) []).state.getD 1 bkt0).value ≤
      ((advance_ns (runCalls (fromNew cfgF) []) 1).state.getD 1 bkt0).value :=
  advance_leaf_mono cfgF (fromNew cfgF) (by decide) [] 1 1 (by decide)
    (by decide)

/-- C6 amended: when `cur.parent` differs from the stack top, the pop loop
emits one `Deposit` per popped ancestor PLUS one `Deposit` for the entry
that remains on top, which equals `cur.parent`; it stops with the top equal
to `cur.parent`; if the stack holds no entry equal to `cur.parent` the loop
empties it and `new` returns `InvalidStructure`; and after the main loop
`new` appends one `Deposit` per remaining stack entry in reverse
(deepest-first) order. -/
theorem compile_deposit_spec :
    (∀ (parent : Option Nat) (stack : List Nat) (ds : List Op)
        (stack' : List Nat),
        popLoop parent stack = some (ds, stack') →
        ∃ dropped p, parent = some p ∧ stack = dropped ++ stack' ∧
          stack'.head? = some p ∧ (∀ x ∈ dropped, some x ≠ parent) ∧
          ds = dropped.map Op.Deposit ++ [Op.Deposit p]) ∧
    (∀ (parent : Option Nat) (stack : List Nat),
        popLoop parent stack = none ↔ ∀ x ∈ stack, some x ≠ parent) ∧
    (∀ (u : Nat) (cur : BucketCfg) (rate : Nat)
        (rest : List (BucketCfg × Nat)) (ix : Nat) (ops : List Op)
        (items : List Bucket) (stack : List Nat),
        ix = cur.this →
        ¬ (items.isEmpty ∧ cur.parent.isSome) →
        ¬ usizeMax < wrap128 (cur.capacity * u) →
        cur.parent ≠ stack.head? →
        popLoop cur.parent stack = none →
        buildLoop u ((cur, rate) :: rest) ix ops items stack =
          .error .InvalidStructure) ∧
    (∀ (tokens : List BucketCfg) (h : HTB),
        new tokens = some (Except.ok h) →
        ∃ u rates opsb items stk,
          buildLoop u (tokens.zip rates) 0 [] [] [] =
            Except.ok (opsb, items, stk) ∧
          h.ops = opsb ++ stk.map Op.Deposit) := by
  refine ⟨fun parent stack ds st' H => popLoop_some stack parent ds st' H,
    fun parent stack => popLoop_none_iff stack parent, ?_, ?_⟩
  · intro u cur rate rest ix ops items stack hix h2 h3 hpar hnone
    simp only [buildLoop]
    rw [if_neg (not_ne_iff.mpr hix), if_neg h2, if_neg h3, if_neg hpar, hnone]
  · intro tokens h H
    obtain ⟨u, rates, opsb, items, stk, _, _, hbl, _, hops, _, _, _⟩ :=
      new_ok_parts tokens h H
    exact ⟨u, rates, opsb, items, stk, hbl, hops⟩

/-- Witness for `compile_deposit_spec`: the pop loop on stack `[1, 0]` with
parent `0` pops `1` (one `Deposit 1`) and also deposits the retained top
`0`. -/
theorem compile_deposit_spec_w :
    ∃ dropped p, (some 0 : Option Nat) = some p ∧
      ([1, 0] : List Nat) = dropped ++ [0] ∧
      ([0] : List Nat).head? = some p ∧
      (∀ x ∈ dropped, some x ≠ (some 0 : Option Nat)) ∧
      [Op.Deposit 1, Op.Deposit 0] = dropped.map Op.Deposit ++ [Op.Deposit p] :=
  compile_deposit_spec.1 (some 0) [1, 0] [Op.Deposit 1, Op.Deposit 0] [0]
    (by decide)

theorem dvd_foldl_lcm (ds : List Nat) :
    ∀ (a b : Nat), a ∣ b → a ∣ ds.foldl Nat.lcm b := by
  induction ds with
  | nil => intro a b h; simpa using h
  | cons c ds ih =>
    intro a b h
    simp only [List.foldl_cons]
    exact ih a (Nat.lcm b c) (h.trans (Nat.dvd_lcm_left b c))

theorem mem_dvd_foldl_lcm (ds : List Nat) :
    ∀ (a b : Nat), b ∈ ds → b ∣ ds.foldl Nat.lcm a := by
  induction ds with
  | nil => intro a b h; cases h
  | cons c ds ih =>
    intro a b hb
    simp only [List.foldl_cons]
    rcases List.mem_cons.mp hb with rfl | hb
    · exact dvd_foldl_lcm ds b (Nat.lcm a b) (Nat.dvd_lcm_right a b)
    · exact ih _ b hb

theorem foldl_lcm_ne_zero (ds : List Nat) :
    ∀ a, a ≠ 0 → (∀ b ∈ ds, b ≠ 0) → ds.foldl Nat.lcm a ≠ 0 := by
  induction ds with
  | nil => intro a h _; simpa using h
  | cons c ds ih =>
    intro a ha hds
    simp only [List.foldl_cons]
    exact ih _ (Nat.lcm_ne_zero ha (hds c (List.mem_cons_self _ _)))
      (fun b hb => hds b (List.mem_cons_of_mem _ hb))

theorem foldl_lcm_zero (ds : List Nat) :
    ∀ a, (a = 0 ∨ 0 ∈ ds) → ds.foldl Nat.lcm a = 0 := by
  induction ds with
  | nil =>
    intro a h
    rcases h with rfl | h
    · rfl
    · cases h
  | cons c ds ih =>
    intro a h
    simp only [List.foldl_cons]
    rcases h with rfl | h
    · exact ih _ (Or.inl (Nat.lcm_zero_left c))
    · rcases List.mem_cons.mp h with rfl | h
      · exact ih _ (Or.inl (Nat.lcm_zero_right a))
      · exact ih _ (Or.inr h)

theorem foldlM_lcmR_zero (ds : List Nat) :
    ∀ a u, (a = 0 ∨ 0 ∈ ds) → ds.foldlM lcmR a = some u → u = 0 := by
  induction ds with
  | nil =>
    intro a u h H
    have ha : a = u := by simpa [List.foldlM] using H
    rcases h with rfl | h
    · exact ha.symm
    · cases h
  | cons c ds ih =>
    intro a u h H
    rw [List.foldlM_cons] at H
    rcases hb : lcmR a c with _ | b
    · rw [hb] at H; exact absurd H (by simp)
    rw [hb] at H
    simp only [Option.bind_eq_bind, Option.some_bind] at H
    have hb0 : b = 0 ∨ 0 ∈ ds := by
      rcases h with rfl | h
      · left
        unfold lcmR at hb
        by_cases hc : c = 0
        · subst hc
          rw [if_pos (by simp)] at hb
          exact absurd hb (by simp)
        · rw [if_neg (by simpa [Nat.gcd] using hc)] at hb
          have := Option.some.inj hb
          simp [wrap128] at this
          omega
      · rcases List.mem_cons.mp h with rfl | h
        · left
          unfold lcmR at hb
          by_cases ha : a = 0
          · subst ha
            rw [if_pos (by simp)] at hb
            exact absurd hb (by simp)
          · rw [if_neg (by simpa using ha)] at hb
            have := Option.some.inj hb
            simp [wrap128] at this
            omega
        · right; exact h
    exact ih b u hb0 H

theorem foldlM_lcmR_eq_pos (ds : List Nat) :
    ∀ a u, a ≠ 0 → (∀ b ∈ ds, b ≠ 0) →
      ds.foldl Nat.lcm a ≤ usizeMax → ds.foldlM lcmR a = some u →
      u = ds.foldl Nat.lcm a := by
  induction ds with
  | nil =>
    intro a u _ _ _ H
    have : a = u := by simpa [List.foldlM] using H
    simpa using this.symm
  | cons c ds ih =>
    intro a u ha hds hle H
    have hc : c ≠ 0 := hds c (List.mem_cons_self _ _)
    have htot : (c :: ds).foldl Nat.lcm a ≠ 0 :=
      foldl_lcm_ne_zero (c :: ds) a ha hds
    have hpos : 0 < (c :: ds).foldl Nat.lcm a := Nat.pos_of_ne_zero htot
    have hda : a ∣ (c :: ds).foldl Nat.lcm a := by
      simp only [List.foldl_cons]
      exact dvd_foldl_lcm ds a (Nat.lcm a c) (Nat.dvd_lcm_left a c)
    have hdc : c ∣ (c :: ds).foldl Nat.lcm a :=
      mem_dvd_foldl_lcm (c :: ds) a c (List.mem_cons_self _ _)
    have hla : a ≤ usizeMax := le_trans (Nat.le_of_dvd hpos hda) hle
    have hlc : c ≤ usizeMax := le_trans (Nat.le_of_dvd hpos hdc) hle
    have hwrap : wrap128 (a * c) = a * c := by
      have hlt : a * c < 2 ^ 128 :=
        lt_of_le_of_lt (Nat.mul_le_mul hla hlc)
          (by decide : usizeMax * usizeMax < 2 ^ 128)
      simpa [wrap128] using Nat.mod_eq_of_lt hlt
    have hg : Nat.gcd a c ≠ 0 := fun hgz => ha (Nat.eq_zero_of_gcd_eq_zero_left hgz)
    have hlcmR : lcmR a c = some (Nat.lcm a c) := by
      unfold lcmR
      rw [if_neg hg, hwrap]
      rfl
    rw [List.foldlM_cons, hlcmR] at H
    simp only [Option.bind_eq_bind, Option.some_bind] at H
    simp only [List.foldl_cons] at hle ⊢
    exact ih (Nat.lcm a c) u (Nat.lcm_ne_zero ha hc)
      (fun b hb => hds b (List.mem_cons_of_mem _ hb)) hle H

theorem foldlM_lcmR_eq (ds : List Nat) (a u : Nat)
    (hle : ds.foldl Nat.lcm a ≤ usizeMax) (H : ds.foldlM lcmR a = some u) :
    u = ds.foldl Nat.lcm a := by
  by_cases hz : a = 0 ∨ 0 ∈ ds
  · rw [foldl_lcm_zero ds a hz]
    exact foldlM_lcmR_zero ds a u hz H
  · push_neg at hz
    exact foldlM_lcmR_eq_pos ds a u hz.1
      (fun b hb hb0 => hz.2 (hb0 ▸ hb)) hle H

theorem zip_map_fst {α β γ : Type} (g : α → γ) :
    ∀ (l1 : List α) (l2 : List β), l1.length = l2.length →
      (l1.zip l2).map (fun pr => g pr.1) = l1.map g := by
  intro l1
  induction l1 with
  | nil => intro l2 _; rfl
  | cons x l1 ih =>
    intro l2 h
    cases l2 with
    | nil => simp at h
    | cons y l2 =>
      simp only [List.zip_cons_cons, List.map_cons]
      rw [ih l2 (by simpa using h)]

theorem zip_forall_fst {α β : Type} (P : α → Prop) :
    ∀ (l1 : List α) (l2 : List β), l1.length = l2.length →
      (∀ pr ∈ l1.zip l2, P pr.1) → ∀ a ∈ l1, P a := by
  intro l1
  induction l1 with
  | nil => intro l2 _ _ a ha; cases ha
  | cons x l1 ih =>
    intro l2 h hall a ha
    cases l2 with
    | nil => simp at h
    | cons y l2 =>
      rcases List.mem_cons.mp ha with rfl | ha
      · exact hall (a, y) (by simp [List.zip_cons_cons])
      · exact ih l2 (by simpa using h)
          (fun pr hpr => hall pr (by simp [List.zip_cons_cons, hpr])) a ha

theorem mem_dvd_listLcm (b : Nat) (ds : List Nat) (hb : b ∈ ds) :
    b ∣ listLcm ds := by
  cases ds with
  | nil => cases hb
  | cons d rest =>
    show b ∣ rest.foldl Nat.lcm d
    rcases List.mem_cons.mp hb with rfl | hb
    · exact dvd_foldl_lcm rest b b dvd_rfl
    · exact mem_dvd_foldl_lcm rest d b hb

/-- C8 amended: when `new(cfgs)` returns `Ok` AND the true lcm of the
configured durations fits in `usize` (which the release build does not
check: its `u128` lcm product can wrap, see `scaling_cex`), `unit_cost`
equals that lcm, every bucket starts full with
`cap = value = capacity_i * unit_cost`, and the `Inflow`/`Take` ops carry
exactly the integer rates `n_i * unit_cost / d_i`, each division exact. -/
theorem scaling_spec (tokens : List BucketCfg) (h : HTB)
    (H : new tokens = some (Except.ok h))
    (Hm : ∀ c ∈ tokens, c.rateNum ≤ usizeMax ∧ c.capacity ≤ usizeMax)
    (HL : listLcm (tokens.map BucketCfg.rateDur) ≤ usizeMax) :
    h.unit_cost = listLcm (tokens.map BucketCfg.rateDur) ∧
    h.state = tokens.map (fun c =>
      ⟨c.capacity * h.unit_cost, c.capacity * h.unit_cost⟩) ∧
    h.ops.filterMap opRate = tokens.map (fun c =>
      c.rateNum * h.unit_cost / c.rateDur) ∧
    ∀ c ∈ tokens, c.rateDur ∣ c.rateNum * h.unit_cost := by
  obtain ⟨u, rates, opsb, items, stk, hcu, hcr, hbl, hstate, hops, hunit,
    htl, hule⟩ := new_ok_parts tokens h H
  obtain ⟨hmap, hnz⟩ := computeRates_spec u tokens rates hcr
  have hlen : tokens.length = rates.length := by rw [hmap, List.length_map]
  obtain ⟨_, C2, _, _, C5, C6, C7, _⟩ :=
    buildLoop_invariant u (tokens.zip rates) 0 [] [] [] opsb items stk hbl
      rfl (by intro x hx; cases hx) List.nodup_nil (by intro k hk; omega)
  obtain ⟨_, d, restD, hdurs, hfold⟩ := computeUnit_parts _ u hcu
  have huLcm : u = listLcm (tokens.map BucketCfg.rateDur) := by
    have hle' : restD.foldl Nat.lcm d ≤ usizeMax := by
      rw [hdurs] at HL
      simpa [listLcm] using HL
    rw [hdurs]
    show u = restD.foldl Nat.lcm d
    exact foldlM_lcmR_eq restD d u hle' hfold
  have hcapbound : ∀ c ∈ tokens, wrap128 (c.capacity * u) ≤ usizeMax :=
    zip_forall_fst _ tokens rates hlen
      (fun pr hpr => C6 pr hpr)
  have hcap_id : ∀ c ∈ tokens, wrap64 (c.capacity * u) = c.capacity * u := by
    intro c hc
    have h128 : wrap128 (c.capacity * u) = c.capacity * u := by
      have hlt : c.capacity * u < 2 ^ 128 :=
        lt_of_le_of_lt (Nat.mul_le_mul (Hm c hc).2 hule)
          (by decide : usizeMax * usizeMax < 2 ^ 128)
      simpa [wrap128] using Nat.mod_eq_of_lt hlt
    have hle64 : c.capacity * u ≤ usizeMax := by
      rw [← h128]; exact hcapbound c hc
    exact wrap64_of_le hle64
  have hrate_id : ∀ c ∈ tokens, wrap128 (c.rateNum * u) = c.rateNum * u := by
    intro c hc
    have hlt : c.rateNum * u < 2 ^ 128 :=
      lt_of_le_of_lt (Nat.mul_le_mul (Hm c hc).1 hule)
        (by decide : usizeMax * usizeMax < 2 ^ 128)
    simpa [wrap128] using Nat.mod_eq_of_lt hlt
  refine ⟨hunit.trans huLcm, ?_, ?_, ?_⟩
  · rw [hstate, C5, List.nil_append,
      zip_map_fst (fun c => (⟨wrap64 (c.capacity * u), wrap64 (c.capacity * u)⟩ :
        Bucket)) tokens rates hlen]
    refine List.map_congr_left ?_
    intro c hc
    rw [hcap_id c hc, hunit]
  · rw [hops, List.filterMap_append, C7]
    simp only [List.filterMap_nil, List.nil_append]
    have hdrain : (stk.map Op.Deposit).filterMap opRate = [] := by
      rw [List.filterMap_eq_nil_iff]
      intro o ho
      rcases List.mem_map.mp ho with ⟨x, _, rfl⟩
      rfl
    rw [hdrain, List.append_nil]
    have hsnd : (tokens.zip rates).map Prod.snd = rates :=
      List.map_snd_zip tokens rates (by omega)
    rw [hsnd, hmap]
    refine List.map_congr_left ?_
    intro c hc
    rw [hrate_id c hc, hunit]
  · intro c hc
    have hdvd : c.rateDur ∣ u := by
      rw [huLcm]
      exact mem_dvd_listLcm c.rateDur _ (List.mem_map_of_mem _ hc)
    rw [hunit]
    exact Dvd.dvd.mul_left hdvd _

/-- Witness for `scaling_spec` at a concrete tree. -/
theorem scaling_spec_w :
    (fromNew cfgE).unit_cost = listLcm (cfgE.map BucketCfg.rateDur) :=
  (scaling_spec cfgE (fromNew cfgE) (by decide) (by decide) (by decide)).1
